import Mathlib

/-!
Verification of the TurboHash core against its specification.

The development shallowly embeds the Rust sources:
  * `src/engine.rs`  - adaptive I/O strategy selection and the three hashing strategies
  * `src/hash.rs`    - the four-way streaming hash accumulator `FileHasher`
  * `src/cache.rs`   - the SQLite-backed cache (schema CHECK constraints,
                       batched save / lookup, expiry cleanup, integrity validation)
  * `src/progress.rs`- the global progress tracker
  * `src/worker.rs`  - the worker command loop

Bytes are modelled as `Nat` (values below 256), machine integers as `Nat`/`Int`
with explicit two's-complement conversions where the code casts between
`u64` and `i64`, and the SQLite table as an association list keyed by the
stored path string.
-/

namespace TurboHash

/-! ## Byte and hex utilities (`hex::encode`, `format!` with 08x) -/

/-- Lowercase hexadecimal digit for a value below 16, as produced by
`hex::encode` and by Rust `format!` with the `x` format spec. -/
def hexDigit (n : Nat) : Char :=
  if n < 10 then Char.ofNat (48 + n) else Char.ofNat (87 + n)

/-- The two lowercase hex characters of one byte. -/
def byteToHex (b : Nat) : List Char :=
  [hexDigit (b / 16 % 16), hexDigit (b % 16)]

/-- `hex::encode`: lowercase hex string of a byte sequence. -/
def hexEncode (bs : List Nat) : String :=
  String.mk ((bs.map byteToHex).flatten)

/-- Big-endian byte decomposition of a number into `width` bytes
(`u32::to_be_bytes`, `u128::to_be_bytes`). -/
def natToBytesBE (width n : Nat) : List Nat :=
  (List.range width).map (fun i => n / 256 ^ (width - 1 - i) % 256)

/-- Little-endian byte decomposition of a number into `width` bytes. -/
def natToBytesLE (width n : Nat) : List Nat :=
  (List.range width).map (fun i => n / 256 ^ i % 256)

/-! ## CRC32 (the `crc32fast` accumulator: CRC-32/ISO-HDLC) -/

/-- The reflected CRC-32 polynomial used by `crc32fast`. -/
def crc32Poly : Nat := 0xEDB88320

/-- One bit step of the reflected CRC-32. -/
def crc32Bit (c : Nat) : Nat :=
  if c % 2 = 1 then Nat.xor (c / 2) crc32Poly else c / 2

/-- Feed one byte into the CRC-32 state. -/
def crc32Byte (crc b : Nat) : Nat :=
  (crc32Bit ∘ crc32Bit ∘ crc32Bit ∘ crc32Bit ∘ crc32Bit ∘ crc32Bit ∘ crc32Bit ∘ crc32Bit)
    (Nat.xor crc (b % 256))

/-- The CRC-32 digest of a byte sequence (`crc32fast::Hasher::finalize`). -/
def crc32Of (bs : List Nat) : Nat :=
  Nat.xor (bs.foldl crc32Byte 0xFFFFFFFF) 0xFFFFFFFF

/-! ## MD5 (the `md5` crate, RFC 1321) -/

/-- Truncation to a 32-bit word. -/
def w32 (n : Nat) : Nat := n % 4294967296

/-- 32-bit addition. -/
def add32 (a b : Nat) : Nat := w32 (a + b)

/-- 32-bit left rotation (argument below 2 to the 32, rotation below 32). -/
def rotl32 (x n : Nat) : Nat :=
  Nat.lor (w32 (Nat.shiftLeft x n)) (Nat.shiftRight x (32 - n))

/-- The 64 MD5 sine-derived round constants. -/
def md5K : List Nat :=
  [0xd76aa478, 0xe8c7b756, 0x242070db, 0xc1bdceee,
   0xf57c0faf, 0x4787c62a, 0xa8304613, 0xfd469501,
   0x698098d8, 0x8b44f7af, 0xffff5bb1, 0x895cd7be,
   0x6b901122, 0xfd987193, 0xa679438e, 0x49b40821,
   0xf61e2562, 0xc040b340, 0x265e5a51, 0xe9b6c7aa,
   0xd62f105d, 0x02441453, 0xd8a1e681, 0xe7d3fbc8,
   0x21e1cde6, 0xc33707d6, 0xf4d50d87, 0x455a14ed,
   0xa9e3e905, 0xfcefa3f8, 0x676f02d9, 0x8d2a4c8a,
   0xfffa3942, 0x8771f681, 0x6d9d6122, 0xfde5380c,
   0xa4beea44, 0x4bdecfa9, 0xf6bb4b60, 0xbebfbc70,
   0x289b7ec6, 0xeaa127fa, 0xd4ef3085, 0x04881d05,
   0xd9d4d039, 0xe6db99e5, 0x1fa27cf8, 0xc4ac5665,
   0xf4292244, 0x432aff97, 0xab9423a7, 0xfc93a039,
   0x655b59c3, 0x8f0ccc92, 0xffeff47d, 0x85845dd1,
   0x6fa87e4f, 0xfe2ce6e0, 0xa3014314, 0x4e0811a1,
   0xf7537e82, 0xbd3af235, 0x2ad7d2bb, 0xeb86d391]

/-- The MD5 per-round left-rotation amounts. -/
def md5S : List Nat :=
  [7, 12, 17, 22, 7, 12, 17, 22, 7, 12, 17, 22, 7, 12, 17, 22,
   5, 9, 14, 20, 5, 9, 14, 20, 5, 9, 14, 20, 5, 9, 14, 20,
   4, 11, 16, 23, 4, 11, 16, 23, 4, 11, 16, 23, 4, 11, 16, 23,
   6, 10, 15, 21, 6, 10, 15, 21, 6, 10, 15, 21, 6, 10, 15, 21]

/-- MD5 round function and message index for round `i` with state words `b c d`. -/
def md5FG (i b c d : Nat) : Nat × Nat :=
  if i < 16 then
    (Nat.lor (Nat.land b c) (Nat.land (w32 (Nat.xor b 0xFFFFFFFF)) d), i)
  else if i < 32 then
    (Nat.lor (Nat.land d b) (Nat.land (w32 (Nat.xor d 0xFFFFFFFF)) c), (5 * i + 1) % 16)
  else if i < 48 then
    (Nat.xor (Nat.xor b c) d, (3 * i + 5) % 16)
  else
    (Nat.xor c (Nat.lor b (w32 (Nat.xor d 0xFFFFFFFF))), (7 * i) % 16)

/-- One MD5 round applied to the running state. -/
def md5Round (m : List Nat) (st : Nat × Nat × Nat × Nat) (i : Nat) :
    Nat × Nat × Nat × Nat :=
  match st with
  | (a, b, c, d) =>
    let fg := md5FG i b c d
    let tmp := add32 (add32 (add32 a fg.1) (md5K.getD i 0)) (m.getD fg.2 0)
    (d, add32 b (rotl32 tmp (md5S.getD i 0)), b, c)

/-- Group a flat list into sublists of `n` elements, with structural fuel
(each step consumes at least one element, so `fuel` bounded below by the list
length suffices). -/
def groupBytesFuel (n : Nat) : Nat → List α → List (List α)
  | _, [] => []
  | 0, l => [l]
  | fuel + 1, x :: xs =>
    (x :: List.take (n - 1) xs) :: groupBytesFuel n fuel (List.drop (n - 1) xs)

/-- Group a flat list into sublists of `n` elements (`n` at least 1): the
first chunk is the first `min n length` elements, and so on. -/
def groupBytes (n : Nat) (l : List α) : List (List α) :=
  groupBytesFuel n l.length l

/-- Read a 4-byte little-endian word. -/
def leWord : List Nat → Nat
  | [b0, b1, b2, b3] => b0 + 256 * b1 + 65536 * b2 + 16777216 * b3
  | _ => 0

/-- MD5 compression of one 64-byte block into the 4-word state. -/
def md5Compress (st : Nat × Nat × Nat × Nat) (block : List Nat) :
    Nat × Nat × Nat × Nat :=
  let m := (groupBytes 4 block).map leWord
  let r := (List.range 64).foldl (md5Round m) st
  match st, r with
  | (a, b, c, d), (a', b', c', d') => (add32 a a', add32 b b', add32 c c', add32 d d')

/-- MD5 padding: `0x80`, zeros to 56 mod 64, then the 64-bit little-endian bit length. -/
def md5Pad (bs : List Nat) : List Nat :=
  bs ++ [0x80] ++ List.replicate ((119 - bs.length % 64) % 64) 0
     ++ natToBytesLE 8 (bs.length * 8 % 2 ^ 64)

/-- The 16-byte MD5 digest of a byte sequence (the `md5` crate's `finalize`). -/
def md5Of (bs : List Nat) : List Nat :=
  let r := (groupBytes 64 (md5Pad bs)).foldl md5Compress
    (0x67452301, 0xefcdab89, 0x98badcfe, 0x10325476)
  match r with
  | (a, b, c, d) => natToBytesLE 4 a ++ natToBytesLE 4 b ++ natToBytesLE 4 c ++ natToBytesLE 4 d

/-! ## SHA-1 (ring's SHA1_FOR_LEGACY_USE_ONLY, FIPS 180) -/

/-- Read a 4-byte big-endian word. -/
def beWord : List Nat → Nat
  | [b0, b1, b2, b3] => b3 + 256 * b2 + 65536 * b1 + 16777216 * b0
  | _ => 0

/-- SHA-1 message schedule: extend 16 words to 80. -/
def sha1Schedule (ws : List Nat) (i : Nat) : List Nat :=
  ws ++ [rotl32 (Nat.xor (Nat.xor (ws.getD (i - 3) 0) (ws.getD (i - 8) 0))
                 (Nat.xor (ws.getD (i - 14) 0) (ws.getD (i - 16) 0))) 1]

/-- SHA-1 round function and round constant for round `i`. -/
def sha1FK (i b c d : Nat) : Nat × Nat :=
  if i < 20 then
    (Nat.lor (Nat.land b c) (Nat.land (w32 (Nat.xor b 0xFFFFFFFF)) d), 0x5A827999)
  else if i < 40 then
    (Nat.xor (Nat.xor b c) d, 0x6ED9EBA1)
  else if i < 60 then
    (Nat.lor (Nat.lor (Nat.land b c) (Nat.land b d)) (Nat.land c d), 0x8F1BBCDC)
  else
    (Nat.xor (Nat.xor b c) d, 0xCA62C1D6)

/-- One SHA-1 round applied to the running 5-word state. -/
def sha1Round (ws : List Nat) (st : Nat × Nat × Nat × Nat × Nat) (i : Nat) :
    Nat × Nat × Nat × Nat × Nat :=
  match st with
  | (a, b, c, d, e) =>
    let fk := sha1FK i b c d
    let tmp := add32 (add32 (add32 (add32 (rotl32 a 5) fk.1) e) fk.2) (ws.getD i 0)
    (tmp, a, rotl32 b 30, c, d)

/-- SHA-1 compression of one 64-byte block into the 5-word state. -/
def sha1Compress (st : Nat × Nat × Nat × Nat × Nat) (block : List Nat) :
    Nat × Nat × Nat × Nat × Nat :=
  let w16 := (groupBytes 4 block).map beWord
  let ws := (List.range 64).foldl (fun acc j => sha1Schedule acc (16 + j)) w16
  let r := (List.range 80).foldl (sha1Round ws) st
  match st, r with
  | (a, b, c, d, e), (a', b', c', d', e') =>
    (add32 a a', add32 b b', add32 c c', add32 d d', add32 e e')

/-- SHA-1 padding: `0x80`, zeros to 56 mod 64, then the 64-bit big-endian bit length. -/
def sha1Pad (bs : List Nat) : List Nat :=
  bs ++ [0x80] ++ List.replicate ((119 - bs.length % 64) % 64) 0
     ++ natToBytesBE 8 (bs.length * 8 % 2 ^ 64)

/-- The 20-byte SHA-1 digest of a byte sequence (ring's `Context::finish`). -/
def sha1Of (bs : List Nat) : List Nat :=
  let r := (groupBytes 64 (sha1Pad bs)).foldl sha1Compress
    (0x67452301, 0xEFCDAB89, 0x98BADCFE, 0x10325476, 0xC3D2E1F0)
  match r with
  | (a, b, c, d, e) =>
    natToBytesBE 4 a ++ natToBytesBE 4 b ++ natToBytesBE 4 c ++ natToBytesBE 4 d
      ++ natToBytesBE 4 e

/-! ## XXH3 (the external `xxhash_rust::xxh3::Xxh3` 128-bit accumulator)

The crate is an external dependency of the repository.  Its streaming state is
a strictly sequential accumulator: the 128-bit digest is a pure function of the
concatenation of all bytes fed through `update`.  We model it as one concrete
such function; every theorem below depends only on this stream-dependence, not
on the concrete mixing. -/

/-- Truncation to a 128-bit word. -/
def w128 (n : Nat) : Nat := n % (2 ^ 128)

/-- Model of the 128-bit XXH3 digest as a pure function of the byte stream. -/
def xxh3Of (bs : List Nat) : Nat :=
  w128 (bs.foldl (fun acc b => w128 ((acc + b % 256 + 1) * 0x9E3779B185EBCA87)) 0x464C4545)

/-! ## `src/hash.rs`: the four-way streaming accumulator `FileHasher`

Each of the four component hashers (`crc32fast::Hasher`, `md5::Md5`,
ring's SHA1 `Context`, `xxhash_rust::xxh3::Xxh3`) is a strictly sequential
streaming accumulator: its digest is a pure function of the concatenation of
the byte slices fed through `update`.  The state is therefore embedded as the
byte stream accumulated so far, and `finalize` applies the four digest
functions to it. -/

@[ext]
structure FileHasher where
  bytes : List Nat
deriving DecidableEq

/-- `FileHasher::new`: all four component hashers in their initial state. -/
def FileHasher.new : FileHasher := ⟨[]⟩

/-- `FileHasher::update`: feed one slice to all four accumulators. -/
def FileHasher.update (h : FileHasher) (data : List Nat) : FileHasher :=
  ⟨h.bytes ++ data⟩

/-- `FileHasher::finalize`: the CRC32 word and the MD5 (16), SHA1 (20) and
XXH3 big-endian (16) digest bytes of the accumulated stream. -/
def FileHasher.finalize (h : FileHasher) : Nat × List Nat × List Nat × List Nat :=
  (crc32Of h.bytes, md5Of h.bytes, sha1Of h.bytes, natToBytesBE 16 (xxh3Of h.bytes))

/-! ## `src/engine.rs`: strategy thresholds, tuning, and the three strategies -/

def TINY_FILE_THRESHOLD : Nat := 64 * 1024

def MEDIUM_FILE_THRESHOLD : Nat := 512 * 1024 * 1024

/-- `format_hash_results`: `format!` of the CRC32 word with the 08x spec and
`hex::encode` of the three digest byte arrays. -/
def format_hash_results (crc32 : Nat) (md5 sha1 xxh3 : List Nat) :
    String × String × String × String :=
  (hexEncode (natToBytesBE 4 crc32), hexEncode md5, hexEncode sha1, hexEncode xxh3)

/-- The I/O strategy chosen by `compute_file_hash`. -/
inductive IoStrategy | tiny | medium | large
deriving DecidableEq

/-- The size-tiered strategy selection of `compute_file_hash`. -/
def selectStrategy (file_size : Nat) : IoStrategy :=
  if file_size < TINY_FILE_THRESHOLD then .tiny
  else if file_size < MEDIUM_FILE_THRESHOLD then .medium
  else .large

/-- Rust `usize::next_multiple_of`: smallest multiple of `k` that is at least
`n` (callers in the source always pass a positive `k`). -/
def nextMultipleOf (n k : Nat) : Nat :=
  if k = 0 then n else (n + k - 1) / k * k

/-- `optimize_buffer_size`: auto-tune the buffered-read size and round it up to
a 64 KiB multiple. -/
def optimize_buffer_size (file_size default_buffer_size : Nat) : Nat :=
  nextMultipleOf
    (if file_size < 10 * 1024 * 1024 then
      min (max (file_size / 4) (64 * 1024)) (512 * 1024)
    else
      min (default_buffer_size * 2) (2 * 1024 * 1024))
    65536

/-- `optimize_chunk_size`: scale the memory-map window for very large files and
round it up to a 2 MiB multiple. -/
def optimize_chunk_size (file_size default_chunk_size : Nat) : Nat :=
  nextMultipleOf
    (if file_size > 10 * 1024 * 1024 * 1024 then
      min (default_chunk_size * 4) (16 * 1024 * 1024)
    else if file_size > 1024 * 1024 * 1024 then
      8 * 1024 * 1024
    else
      default_chunk_size)
    (2 * 1024 * 1024)

/-- `compute_hash_tiny`: read the whole file once and feed it to the hasher. -/
def compute_hash_tiny (data : List Nat) : String × String × String × String :=
  match (FileHasher.new.update data).finalize with
  | (crc32, md5, sha1, xxh3) => format_hash_results crc32 md5 sha1 xxh3

/-- `compute_hash_medium`: buffered sequential read.  Each `reader.read` call
returns some prefix of the remaining bytes of length at most the buffer size
(zero only at end of file), and each returned slice is fed to the hasher; the
`chunks` argument is the sequence of slices such a read loop produced. -/
def compute_hash_medium (chunks : List (List Nat)) : String × String × String × String :=
  match (chunks.foldl FileHasher.update FileHasher.new).finalize with
  | (crc32, md5, sha1, xxh3) => format_hash_results crc32 md5 sha1 xxh3

/-- The deterministic window sequence of `compute_hash_large_serial`: windows
of exactly `min mmap_chunk_size remaining` bytes from offset 0 to the end. -/
def mmapWindows (mmap_chunk_size : Nat) (data : List Nat) : List (List Nat) :=
  groupBytes mmap_chunk_size data

/-- `compute_hash_large` (serial memory-mapped windows). -/
def compute_hash_large (data : List Nat) (mmap_chunk_size : Nat) :
    String × String × String × String :=
  match ((mmapWindows mmap_chunk_size data).foldl FileHasher.update
      FileHasher.new).finalize with
  | (crc32, md5, sha1, xxh3) => format_hash_results crc32 md5 sha1 xxh3

/-! ## Strategy independence (claim C1) -/

theorem groupBytesFuel_flatten (n : Nat) :
    ∀ (fuel : Nat) (l : List α), l.length ≤ fuel → (groupBytesFuel n fuel l).flatten = l := by
  intro fuel
  induction fuel with
  | zero =>
    intro l hl
    cases l with
    | nil => simp [groupBytesFuel]
    | cons x xs => simp at hl
  | succ fuel ih =>
    intro l hl
    cases l with
    | nil => simp [groupBytesFuel]
    | cons x xs =>
      simp only [groupBytesFuel, List.flatten_cons]
      have hlen : (List.drop (n - 1) xs).length ≤ fuel := by
        simp only [List.length_drop]
        simp only [List.length_cons] at hl
        omega
      rw [ih (List.drop (n - 1) xs) hlen]
      simp

theorem groupBytes_flatten (n : Nat) (l : List α) : (groupBytes n l).flatten = l :=
  groupBytesFuel_flatten n l.length l le_rfl

theorem foldl_update_bytes (chunks : List (List Nat)) :
    ∀ h : FileHasher, (chunks.foldl FileHasher.update h).bytes = h.bytes ++ chunks.flatten := by
  induction chunks with
  | nil => intro h; simp
  | cons c cs ih =>
    intro h
    simp only [List.foldl_cons, List.flatten_cons, ih, FileHasher.update, List.append_assoc]

/-- Claim C1: for every byte content, the three I/O strategies of
`compute_file_hash` produce identical CRC32, MD5, SHA1 and XXH3 digest
strings.  The medium strategy is quantified over every possible sequence of
buffered reads (each read returns at most `buffer_size` bytes and the reads
concatenate to the file content), and the large strategy over every positive
memory-map window size; both equal the tiny whole-file strategy, so all three
are extensionally equal on the same input bytes. -/
theorem compute_file_hash_strategy_independence
    (data : List Nat) (buffer_size mmap_chunk_size : Nat)
    (chunks : List (List Nat))
    (hjoin : chunks.flatten = data)
    (hbound : ∀ c ∈ chunks, c.length ≤ buffer_size)
    (hpos : 0 < mmap_chunk_size) :
    compute_hash_medium chunks = compute_hash_tiny data ∧
    compute_hash_large data mmap_chunk_size = compute_hash_tiny data := by
  constructor
  · unfold compute_hash_medium compute_hash_tiny
    rw [show (chunks.foldl FileHasher.update FileHasher.new)
          = FileHasher.new.update data by
        apply FileHasher.ext
        rw [foldl_update_bytes, hjoin]; rfl]
  · unfold compute_hash_large compute_hash_tiny
    rw [show ((mmapWindows mmap_chunk_size data).foldl FileHasher.update FileHasher.new)
          = FileHasher.new.update data by
        apply FileHasher.ext
        rw [foldl_update_bytes, mmapWindows, groupBytes_flatten]; rfl]

/-- Witness for C1 at concrete input: the 5-byte content read in one piece,
in reads of at most 2 bytes, and through 3-byte memory-map windows. -/
theorem compute_file_hash_strategy_independence_witness :
    compute_hash_medium [[1, 2], [3, 4], [5]] = compute_hash_tiny [1, 2, 3, 4, 5] ∧
    compute_hash_large [1, 2, 3, 4, 5] 3 = compute_hash_tiny [1, 2, 3, 4, 5] :=
  compute_file_hash_strategy_independence [1, 2, 3, 4, 5] 2 3 [[1, 2], [3, 4], [5]]
    (by decide) (by decide) (by decide)

/-! Digest sanity checks: the values pinned by the repository's own
`hash.rs::tests::test_empty_hash` and the standard CRC-32 check value. -/

set_option maxRecDepth 100000 in
theorem md5Of_empty :
    md5Of [] = [0xd4, 0x1d, 0x8c, 0xd9, 0x8f, 0x00, 0xb2, 0x04,
                0xe9, 0x80, 0x09, 0x98, 0xec, 0xf8, 0x42, 0x7e] := by
  decide

set_option maxRecDepth 100000 in
theorem sha1Of_empty :
    sha1Of [] = [0xda, 0x39, 0xa3, 0xee, 0x5e, 0x6b, 0x4b, 0x0d, 0x32, 0x55,
                 0xbf, 0xef, 0x95, 0x60, 0x18, 0x90, 0xaf, 0xd8, 0x07, 0x09] := by
  decide

theorem crc32Of_empty : crc32Of [] = 0 := by decide

set_option maxRecDepth 100000 in
theorem crc32Of_check : crc32Of [49, 50, 51, 52, 53, 54, 55, 56, 57] = 0xCBF43926 := by
  decide

/-! ## Strategy selection and size tuning (claim C8) -/

/-- Claim C8 counterexample: an 11 GiB file is over 1 GiB, yet with the
realistic configured default window of 1 MiB the optimized memory-map window
is `min (4 * 1 MiB) 16 MiB = 4 MiB` (already 2 MiB-aligned), below the
claimed 8 MiB minimum for files over 1 GiB. -/
theorem optimize_chunk_size_over_10GiB_below_8MiB :
    1024 * 1024 * 1024 < 11 * 1024 * 1024 * 1024 ∧
    optimize_chunk_size (11 * 1024 * 1024 * 1024) (1024 * 1024) < 8 * 1024 * 1024 := by
  constructor
  · norm_num
  · decide

/-- Claim C8 (amended): `compute_file_hash` selects the whole-file-read
strategy iff the size is below 64 KiB, the buffered strategy iff it is in
[64 KiB, 512 MiB), and the memory-mapped strategy iff it is at least 512 MiB;
the buffer size is rounded up to a 64 KiB multiple, and the mmap window is a
2 MiB multiple, equal to 8 MiB (hence at least 8 MiB) for sizes over 1 GiB up
to 10 GiB, and at most 16 MiB (namely `min (4 * default) 16 MiB` rounded to a
2 MiB multiple) for sizes over 10 GiB. -/
theorem compute_file_hash_strategy_selection (s d : Nat) :
    (selectStrategy s = .tiny ↔ s < 64 * 1024) ∧
    (selectStrategy s = .medium ↔ 64 * 1024 ≤ s ∧ s < 512 * 1024 * 1024) ∧
    (selectStrategy s = .large ↔ 512 * 1024 * 1024 ≤ s) ∧
    65536 ∣ optimize_buffer_size s d ∧
    2 * 1024 * 1024 ∣ optimize_chunk_size s d ∧
    (1024 * 1024 * 1024 < s → s ≤ 10 * 1024 * 1024 * 1024 →
      optimize_chunk_size s d = 8 * 1024 * 1024) ∧
    (10 * 1024 * 1024 * 1024 < s → optimize_chunk_size s d ≤ 16 * 1024 * 1024) := by
  refine ⟨?_, ?_, ?_, ?_, ?_, ?_, ?_⟩
  · simp only [selectStrategy, TINY_FILE_THRESHOLD, MEDIUM_FILE_THRESHOLD]
    split_ifs with h1 h2 <;> simp_all <;> omega
  · simp only [selectStrategy, TINY_FILE_THRESHOLD, MEDIUM_FILE_THRESHOLD]
    split_ifs with h1 h2 <;> simp_all <;> omega
  · simp only [selectStrategy, TINY_FILE_THRESHOLD, MEDIUM_FILE_THRESHOLD]
    split_ifs with h1 h2 <;> simp_all <;> omega
  · unfold optimize_buffer_size nextMultipleOf
    rw [if_neg (by norm_num)]
    exact dvd_mul_left 65536 _
  · unfold optimize_chunk_size nextMultipleOf
    rw [if_neg (by norm_num)]
    exact dvd_mul_left (2 * 1024 * 1024) _
  · intro h1 h2
    have hc : ¬ (10 * 1024 * 1024 * 1024 < s) := by omega
    simp only [optimize_chunk_size, gt_iff_lt, if_neg hc, if_pos h1]
    decide
  · intro h
    simp only [optimize_chunk_size, gt_iff_lt, if_pos h]
    simp only [nextMultipleOf]
    rw [if_neg (by norm_num)]
    have hx : min (d * 4) (16 * 1024 * 1024) + 2 * 1024 * 1024 - 1 ≤ 18874367 := by
      have := Nat.min_le_right (d * 4) (16 * 1024 * 1024)
      omega
    calc (min (d * 4) (16 * 1024 * 1024) + 2 * 1024 * 1024 - 1) / (2 * 1024 * 1024)
           * (2 * 1024 * 1024)
        ≤ 18874367 / (2 * 1024 * 1024) * (2 * 1024 * 1024) :=
          Nat.mul_le_mul_right _ (Nat.div_le_div_right hx)
      _ = 16 * 1024 * 1024 := by norm_num

/-- Witness for C8 at concrete inputs: a 2 GiB file with the default 4 MiB
window gets an 8 MiB optimized window, and a 1000-byte file selects the tiny
strategy. -/
theorem compute_file_hash_strategy_selection_witness :
    selectStrategy 1000 = IoStrategy.tiny ∧
    optimize_chunk_size (2 * 1024 * 1024 * 1024) (4 * 1024 * 1024) = 8 * 1024 * 1024 :=
  ⟨((compute_file_hash_strategy_selection 1000 0).1).mpr (by norm_num),
   ((compute_file_hash_strategy_selection (2 * 1024 * 1024 * 1024)
      (4 * 1024 * 1024)).2.2.2.2.2.1) (by norm_num) (by norm_num)⟩

/-! ## `src/cache.rs`: data model and the SQLite-backed store

The `hash_cache` table is embedded as an association list from the stored path
string to the stored row.  `INSERT OR REPLACE` replaces the row with the same
primary key; the integer columns hold the `i64` values bound by the Rust code
(which casts `u64` fields with `as i64` on write and back with `as u64` on
read). -/

/-- `CacheEntry` (`u64` fields modelled as `Nat`). -/
structure CacheEntry where
  path : String
  file_size : Nat
  modified_time : Nat
  cached_at : Nat
  xxhash3 : String
  crc32 : String
  md5 : String
  sha1 : String
deriving DecidableEq

/-- Rust `as i64` applied to a `u64` value (two's complement reinterpretation). -/
def toI64 (n : Nat) : Int := if n < 2 ^ 63 then (n : Int) else (n : Int) - 2 ^ 64

/-- Rust `as u64` applied to an `i64` value (two's complement reinterpretation). -/
def toU64 (i : Int) : Nat := (i % 2 ^ 64).toNat

/-- One stored row of `hash_cache` (integer columns hold the bound `i64`s). -/
structure CacheRow where
  file_size : Int
  modified_time : Int
  cached_at : Int
  xxhash3 : String
  crc32 : String
  md5 : String
  sha1 : String
deriving DecidableEq

/-- The `hash_cache` table. -/
abbrev Store := List (String × CacheRow)

/-- A character of the SQLite GLOB class `[0-9a-fA-F]`. -/
def isHexChar (c : Char) : Bool :=
  (decide ('0' ≤ c) && decide (c ≤ '9')) ||
  (decide ('a' ≤ c) && decide (c ≤ 'f')) ||
  (decide ('A' ≤ c) && decide (c ≤ 'F'))

/-- The GLOB pattern `[0-9a-fA-F][0-9a-fA-F]*` of the v3 schema: it matches
exactly the strings of length at least two whose FIRST TWO characters are in
the hex class; the trailing `*` matches any remaining characters. -/
def globTwoHexThenAny (s : String) : Bool :=
  match s.data with
  | c0 :: c1 :: _ => isHexChar c0 && isHexChar c1
  | _ => false

/-- The CHECK constraints of `create_schema_v3` evaluated on a bound row. -/
def rowSatisfiesChecks (r : CacheRow) : Bool :=
  decide (0 < r.file_size) && decide (0 ≤ r.modified_time) && decide (0 < r.cached_at) &&
  (r.xxhash3.length == 32) && (r.crc32.length == 8) &&
  (r.md5.length == 32) && (r.sha1.length == 40) &&
  globTwoHexThenAny r.xxhash3 && globTwoHexThenAny r.crc32 &&
  globTwoHexThenAny r.md5 && globTwoHexThenAny r.sha1

/-- Remove the row with the given primary key. -/
def eraseRow (st : Store) (p : String) : Store :=
  st.filter (fun kv => kv.1 != p)

/-- `INSERT OR REPLACE` keyed by the stored path. -/
def insertRow (st : Store) (p : String) (r : CacheRow) : Store :=
  (p, r) :: eraseRow st p

/-- The values bound by `save_entries_batch` for one entry (the `u64` fields
are cast with `as i64`). -/
def entryToRow (e : CacheEntry) : CacheRow :=
  ⟨toI64 e.file_size, toI64 e.modified_time, toI64 e.cached_at,
   e.xxhash3, e.crc32, e.md5, e.sha1⟩

/-- The entry reconstructed by `get_by_paths_batch` from a stored row (the
integer columns are read back with `as u64`). -/
def rowToEntry (p : String) (r : CacheRow) : CacheEntry :=
  ⟨p, toU64 r.file_size, toU64 r.modified_time, toU64 r.cached_at,
   r.xxhash3, r.crc32, r.md5, r.sha1⟩

/-- The write loop of `save_entries_batch`: normalize the path (an error
aborts the whole call, rolling the transaction back), execute the insert, and
on a CHECK-constraint violation log and skip the row without counting it. -/
def saveEntriesGo (norm : String → Option String) :
    Store → Nat → List CacheEntry → Option (Nat × Store)
  | st, saved, [] => some (saved, st)
  | st, saved, e :: rest =>
    match norm e.path with
    | none => none
    | some p =>
      if rowSatisfiesChecks (entryToRow e) then
        saveEntriesGo norm (insertRow st p (entryToRow e)) (saved + 1) rest
      else
        saveEntriesGo norm st saved rest

/-- `save_entries_batch`: returns the count of rows actually written together
with the updated store, or an error if some path fails to normalize. -/
def save_entries_batch (norm : String → Option String) (st : Store)
    (entries : List CacheEntry) : Option (Nat × Store) :=
  saveEntriesGo norm st 0 entries

/-- Normalize all query paths (any failure fails the whole batch query). -/
def normalizeAll (norm : String → Option String) : List String → Option (List String)
  | [] => some []
  | p :: rest =>
    match norm p, normalizeAll norm rest with
    | some q, some qs => some (q :: qs)
    | _, _ => none

/-- Insert into the result map (`HashMap::insert` semantics: replace). -/
def mapInsert (m : List (String × Option CacheEntry)) (k : String)
    (v : Option CacheEntry) : List (String × Option CacheEntry) :=
  (k, v) :: m.filter (fun kv => kv.1 != k)

/-- Initialize every original and normalized path to `None`. -/
def initResult : List String → List String →
    List (String × Option CacheEntry) → List (String × Option CacheEntry)
  | [], _, acc => acc
  | _ :: _, [], acc => acc
  | p :: ps, q :: qs, acc => initResult ps qs (mapInsert (mapInsert acc p none) q none)

/-- Process the rows returned for one chunk: key each found entry by the
stored (normalized) path and, when that path is one of the normalized query
paths, also by the corresponding caller-supplied original path. -/
def processRows (paths normalized : List String) (rows : Store)
    (acc : List (String × Option CacheEntry)) : List (String × Option CacheEntry) :=
  rows.foldl
    (fun acc kv =>
      let entry := rowToEntry kv.1 kv.2
      let acc := mapInsert acc kv.1 (some entry)
      match normalized.findIdx? (fun q => q == kv.1) with
      | some idx =>
        match paths.get? idx with
        | some orig => mapInsert acc orig (some entry)
        | none => acc
      | none => acc)
    acc

/-- `get_by_paths_batch`: normalize all input paths, query in chunks of at
most 999 bound parameters, and return a map keyed by both the caller-supplied
and the normalized paths. -/
def get_by_paths_batch (norm : String → Option String) (st : Store)
    (paths : List String) : Option (List (String × Option CacheEntry)) :=
  if paths.isEmpty then some []
  else
    match normalizeAll norm paths with
    | none => none
    | some normalized =>
      some ((groupBytes 999 normalized).foldl
        (fun acc chunk =>
          processRows paths normalized (st.filter (fun kv => chunk.contains kv.1)) acc)
        (initResult paths normalized []))

/-- `cleanup_expired`: with retention 0 expiry is disabled; otherwise delete
every row whose `cached_at` is below `now` minus the retention window
(`saturating_sub` on `u64`, then bound `as i64`), returning the deleted
count and the remaining store. -/
def cleanup_expired (retention_days now : Nat) (st : Store) : Nat × Store :=
  if retention_days = 0 then (0, st)
  else
    ((st.filter (fun kv =>
        decide (kv.2.cached_at < toI64 (now - retention_days * 86400)))).length,
     st.filter (fun kv =>
        !decide (kv.2.cached_at < toI64 (now - retention_days * 86400))))

/-- `is_valid_with_metadata`: the cheap pre-check (size and mtime equality). -/
def is_valid_with_metadata (entry : CacheEntry) (file_size modified_time : Nat) : Bool :=
  entry.file_size == file_size && entry.modified_time == modified_time

/-- `validate_cache_integrity`: requires size, mtime and the freshly computed
fast digest to all match (each mismatch is reported and returns false). -/
def validate_cache_integrity (entry : CacheEntry) (computed_xxhash3 : String)
    (file_size modified_time : Nat) : Bool :=
  if entry.file_size != file_size then false
  else if entry.modified_time != modified_time then false
  else if entry.xxhash3 != computed_xxhash3 then false
  else true

/-- `verify_cached_hashes`: structural sanity check of the stored digest
strings - exact lengths and full `hex::decode` validity (`hex::decode`
succeeds exactly when the length is even and every character is hex). -/
def verify_cached_hashes (entry : CacheEntry) : Bool :=
  (entry.xxhash3.length == 32) && (entry.crc32.length == 8) &&
  (entry.md5.length == 32) && (entry.sha1.length == 40) &&
  entry.xxhash3.data.all isHexChar && entry.crc32.data.all isHexChar &&
  entry.md5.data.all isHexChar && entry.sha1.data.all isHexChar

/-! ## Integrity validation (claim C5) -/

/-- Claim C5: for every cache entry, freshly computed xxh3 digest string,
observed size and observed mtime, `validate_cache_integrity` returns true if
and only if the entry's `file_size` equals the observed size, its
`modified_time` equals the observed mtime, and its `xxhash3` equals the
freshly computed digest; a mismatch in any one of the three yields false. -/
theorem validate_cache_integrity_iff (entry : CacheEntry) (x : String) (s m : Nat) :
    validate_cache_integrity entry x s m = true ↔
      entry.file_size = s ∧ entry.modified_time = m ∧ entry.xxhash3 = x := by
  unfold validate_cache_integrity
  split_ifs with h1 h2 h3 <;> simp_all [bne_iff_ne]

/-! ## Expiry cleanup (claim C6) -/

theorem bool_not_decide_eq_decide (p q : Prop) [Decidable p] [Decidable q]
    (h : ¬p ↔ q) : (!decide p) = decide q := by
  by_cases hp : p <;> by_cases hq : q <;> simp_all

theorem bool_decide_eq_decide (p q : Prop) [Decidable p] [Decidable q]
    (h : p ↔ q) : decide p = decide q := by
  by_cases hp : p <;> by_cases hq : q <;> simp_all

theorem toI64_small (n : Nat) (h : n < 2 ^ 63) : toI64 n = (n : Int) := by
  unfold toI64
  rw [if_pos h]

/-- Claim C6: `cleanup_expired` deletes exactly those entries whose
`cached_at` is strictly older than `retention_days * 86400` seconds before
the current time and returns their count; when `retention_days = 0` it
deletes nothing and returns 0 regardless of entry age.  (Stored rows satisfy
the schema's `cached_at > 0` CHECK, and the current unix time fits in 63
bits.) -/
theorem cleanup_expired_spec (retention_days now : Nat) (st : Store)
    (hrows : ∀ kv ∈ st, 0 < kv.2.cached_at) (hnow : now < 2 ^ 63) :
    (retention_days = 0 → cleanup_expired retention_days now st = (0, st)) ∧
    (0 < retention_days →
      (cleanup_expired retention_days now st).2 =
        st.filter (fun kv =>
          decide ((now : Int) - (retention_days : Int) * 86400 ≤ kv.2.cached_at)) ∧
      (cleanup_expired retention_days now st).1 =
        (st.filter (fun kv =>
          decide (kv.2.cached_at < (now : Int) - (retention_days : Int) * 86400))).length) := by
  constructor
  · intro h0
    simp [cleanup_expired, h0]
  · intro hpos
    unfold cleanup_expired
    rw [if_neg (by omega)]
    have hcut : toI64 (now - retention_days * 86400) =
        ((now - retention_days * 86400 : Nat) : Int) :=
      toI64_small _ (by omega)
    constructor
    · apply List.filter_congr
      intro kv hkv
      have hc := hrows kv hkv
      apply bool_not_decide_eq_decide
      rw [hcut]
      omega
    · simp only []
      congr 1
      apply List.filter_congr
      intro kv hkv
      have hc := hrows kv hkv
      apply bool_decide_eq_decide
      rw [hcut]
      omega

/-- All-zero digest strings of the four required lengths (valid hex). -/
def zeros8 : String := "00000000"

def zeros32 : String := "00000000000000000000000000000000"

def zeros40 : String := "0000000000000000000000000000000000000000"

/-- Witness for C6 at a concrete store: one row cached at unix second 5; a
30-day retention at a much later time deletes it (count 1), and retention 0
deletes nothing. -/
theorem cleanup_expired_spec_witness :
    cleanup_expired 0 1000000000 [("a", ⟨1, 0, 5, zeros32, zeros8, zeros32, zeros40⟩)]
        = (0, [("a", ⟨1, 0, 5, zeros32, zeros8, zeros32, zeros40⟩)]) ∧
    (cleanup_expired 30 1000000000
        [("a", ⟨1, 0, 5, zeros32, zeros8, zeros32, zeros40⟩)]).2 = [] ∧
    (cleanup_expired 30 1000000000
        [("a", ⟨1, 0, 5, zeros32, zeros8, zeros32, zeros40⟩)]).1 = 1 := by
  have h0 := cleanup_expired_spec 0 1000000000
    [("a", ⟨1, 0, 5, zeros32, zeros8, zeros32, zeros40⟩)] (by decide) (by decide)
  have h := cleanup_expired_spec 30 1000000000
    [("a", ⟨1, 0, 5, zeros32, zeros8, zeros32, zeros40⟩)] (by decide) (by decide)
  refine ⟨h0.1 rfl, ?_, ?_⟩
  · rw [(h.2 (by decide)).1]
    decide
  · rw [(h.2 (by decide)).2]
    decide

/-! ## Write-time constraint enforcement (claim C2) -/

/-- Identity normalizer: models `canonicalize` on an existing path that is
already in canonical form. -/
def idNorm : String → Option String := fun s => some s

/-- Claim C2 code-bug exhibit: the v3 schema's hex-charset CHECKs use the
GLOB pattern `[0-9a-fA-F][0-9a-fA-F]*`, whose trailing `*` matches any
characters, so only the FIRST TWO characters are constrained to be hex.  An
entry whose crc32 is `00zzzzzz` (correct length 8, non-hex from position 2)
is accepted: `save_entries_batch` returns saved-count 1 and stores the row,
contradicting the claimed rejection of any non-hex digest.  Wrong-length and
non-positive-field violations are rejected as claimed. -/
theorem save_entries_batch_hex_charset_not_enforced :
    (¬ ∀ c ∈ "00zzzzzz".data, isHexChar c = true) ∧
    save_entries_batch idNorm []
      [⟨"a", 1, 0, 1, zeros32, "00zzzzzz", zeros32, zeros40⟩]
      = some (1, [("a", ⟨1, 0, 1, zeros32, "00zzzzzz", zeros32, zeros40⟩)]) ∧
    save_entries_batch idNorm []
      [⟨"a", 1, 0, 1, zeros32, "0123456", zeros32, zeros40⟩] = some (0, []) ∧
    save_entries_batch idNorm []
      [⟨"a", 0, 0, 1, zeros32, zeros8, zeros32, zeros40⟩] = some (0, []) ∧
    save_entries_batch idNorm []
      [⟨"a", 1, 0, 0, zeros32, zeros8, zeros32, zeros40⟩] = some (0, []) := by
  decide

/-! ## Save/lookup round trip (claim C4) -/

/-- A normalizer mapping a relative path to its absolute form, as
`dunce::canonicalize` does for an existing relative path (here resolved
against the directory `/r`). -/
def absNorm : String → Option String := fun s => some ("/r/" ++ s)

/-- Claim C4 counterexample: for the well-formed, normalizable entry with
relative path `a`, the save/get round trip returns (under the key `a`) an
entry whose `path` field is the normalized `/r/a`, so the returned entry is
NOT equal to the saved one in all fields. -/
theorem save_get_roundtrip_path_cex :
    save_entries_batch absNorm [] [⟨"a", 1, 2, 3, zeros32, zeros8, zeros32, zeros40⟩]
      = some (1, [("/r/a", ⟨1, 2, 3, zeros32, zeros8, zeros32, zeros40⟩)]) ∧
    (get_by_paths_batch absNorm
        [("/r/a", ⟨1, 2, 3, zeros32, zeros8, zeros32, zeros40⟩)] ["a"]).map
        (fun res => res.lookup "a")
      = some (some (some ⟨"/r/a", 1, 2, 3, zeros32, zeros8, zeros32, zeros40⟩)) ∧
    (⟨"/r/a", 1, 2, 3, zeros32, zeros8, zeros32, zeros40⟩ : CacheEntry)
      ≠ ⟨"a", 1, 2, 3, zeros32, zeros8, zeros32, zeros40⟩ := by
  decide

theorem toU64_toI64 (n : Nat) (h : n < 2 ^ 64) : toU64 (toI64 n) = n := by
  unfold toU64 toI64
  split_ifs with h1 <;> omega

theorem filter_erase_self (st : Store) (p : String) :
    (eraseRow st p).filter (fun kv => [p].contains kv.1) = [] := by
  induction st with
  | nil => rfl
  | cons kv rest ih =>
    by_cases h : kv.1 = p <;>
      simp_all [eraseRow, List.filter_cons, bne_iff_ne, beq_iff_eq, List.contains]

theorem rowToEntry_entryToRow (e : CacheEntry) (p : String)
    (hs : e.file_size < 2 ^ 64) (hm : e.modified_time < 2 ^ 64)
    (hc : e.cached_at < 2 ^ 64) :
    rowToEntry p (entryToRow e) = { e with path := p } := by
  cases e
  simp only [rowToEntry, entryToRow]
  simp_all [toU64_toI64]

/-- Claim C4 (amended): for every well-formed cache entry `e` (constraints
satisfied, path normalizable to `p`, `u64` fields in range),
`save_entries_batch [e]` writes one row and `get_by_paths_batch [e.path]`
returns, under the key `e.path`, an entry equal to `e` in `file_size`,
`modified_time`, `cached_at` and all four digest fields, whose `path` field
is the normalized `p`; in particular equal to `e` in all fields exactly when
`e.path` is already in normalized form. -/
theorem save_get_roundtrip (norm : String → Option String) (st : Store)
    (e : CacheEntry) (p : String)
    (hnorm : norm e.path = some p)
    (hchecks : rowSatisfiesChecks (entryToRow e) = true)
    (hs : e.file_size < 2 ^ 64) (hm : e.modified_time < 2 ^ 64)
    (hc : e.cached_at < 2 ^ 64) :
    save_entries_batch norm st [e] = some (1, insertRow st p (entryToRow e)) ∧
    (get_by_paths_batch norm (insertRow st p (entryToRow e)) [e.path]).map
        (fun res => res.lookup e.path)
      = some (some (some { e with path := p })) := by
  constructor
  · simp [save_entries_batch, saveEntriesGo, hnorm, hchecks]
  · unfold get_by_paths_batch
    rw [if_neg (by simp)]
    simp only [normalizeAll, hnorm]
    have hrows : (insertRow st p (entryToRow e)).filter
        (fun kv => [p].contains kv.1) = [(p, entryToRow e)] := by
      unfold insertRow
      rw [List.filter_cons]
      rw [filter_erase_self]
      simp [List.elem]
    have hgroup : groupBytes 999 [p] = [[p]] := rfl
    rw [hgroup]
    simp only [List.foldl_cons, List.foldl_nil, Option.map_some]
    rw [hrows]
    simp only [processRows, List.foldl_cons, List.foldl_nil]
    simp only [List.findIdx?, beq_self_eq_true]
    simp only [List.get?, mapInsert]
    rw [rowToEntry_entryToRow e p hs hm hc]
    simp [List.lookup]

/-- Witness for C4 (amended) at a concrete entry whose path `a` is already in
normalized form: the round trip returns the entry unchanged. -/
theorem save_get_roundtrip_witness :
    save_entries_batch idNorm []
        [⟨"a", 7, 2, 3, zeros32, zeros8, zeros32, zeros40⟩]
      = some (1, insertRow [] "a"
          (entryToRow ⟨"a", 7, 2, 3, zeros32, zeros8, zeros32, zeros40⟩)) ∧
    (get_by_paths_batch idNorm
        (insertRow [] "a"
          (entryToRow ⟨"a", 7, 2, 3, zeros32, zeros8, zeros32, zeros40⟩)) ["a"]).map
        (fun res => res.lookup "a")
      = some (some (some { (⟨"a", 7, 2, 3, zeros32, zeros8, zeros32, zeros40⟩ :
          CacheEntry) with path := "a" })) :=
  save_get_roundtrip idNorm [] ⟨"a", 7, 2, 3, zeros32, zeros8, zeros32, zeros40⟩ "a"
    rfl (by decide) (by decide) (by decide) (by decide)

/-! ## `src/progress.rs`: the global progress tracker

The tracker state is `{processed_bytes, total_bytes, in_progress}` with the
`in_progress` hash map embedded as an association list with replace-on-insert
semantics (`HashMap::insert`).  `get_global_progress` divides by the total in
`f64`; the fraction itself is modelled exactly in `ℚ`. -/

/-- `FileProgress`: per-file processed and total byte counts. -/
structure FileProgress where
  processed : Nat
  total : Nat
deriving DecidableEq

/-- The `ProgressTracker` state. -/
structure TrackerState where
  processed_bytes : Nat
  total_bytes : Nat
  in_progress : List (String × FileProgress)
deriving DecidableEq

/-- `ProgressTracker::new`. -/
def TrackerState.new : TrackerState := ⟨0, 0, []⟩

/-- First-match lookup in the in-progress map. -/
def lookupFile : List (String × FileProgress) → String → Option FileProgress
  | [], _ => none
  | (q, fp) :: rest, p => if q = p then some fp else lookupFile rest p

/-- `HashMap::remove` on the in-progress map. -/
def eraseFile (m : List (String × FileProgress)) (p : String) :
    List (String × FileProgress) :=
  m.filter (fun kv => kv.1 != p)

/-- `HashMap::insert` (replace) on the in-progress map. -/
def insertFile (m : List (String × FileProgress)) (p : String) (fp : FileProgress) :
    List (String × FileProgress) :=
  (p, fp) :: eraseFile m p

/-- `set_total`. -/
def setTotal (s : TrackerState) (t : Nat) : TrackerState :=
  { s with total_bytes := t }

/-- `start_file`: register the file with zero processed bytes. -/
def startFile (s : TrackerState) (p : String) (total : Nat) : TrackerState :=
  { s with in_progress := insertFile s.in_progress p ⟨0, total⟩ }

/-- `update_progress`: overwrite the file's processed count if registered,
otherwise do nothing. -/
def updateProgress (s : TrackerState) (p : String) (processed : Nat) : TrackerState :=
  match lookupFile s.in_progress p with
  | some fp =>
    { s with in_progress := insertFile s.in_progress p ⟨processed, fp.total⟩ }
  | none => s

/-- `complete_file`: if the file is registered, remove it and add its full
size to the completed counter; otherwise do nothing. -/
def completeFile (s : TrackerState) (p : String) : TrackerState :=
  match lookupFile s.in_progress p with
  | some fp =>
    { s with in_progress := eraseFile s.in_progress p,
             processed_bytes := s.processed_bytes + fp.total }
  | none => s

/-- `reset`. -/
def resetTracker (_ : TrackerState) : TrackerState := ⟨0, 0, []⟩

/-- Sum of the live per-file processed counts. -/
def sumInProgress (m : List (String × FileProgress)) : Nat :=
  (m.map (fun kv => kv.2.processed)).sum

/-- `get_global_progress`: 0 when the total is 0, otherwise
`(processed_bytes + sum of live processed) / total_bytes` (exact fraction). -/
def getGlobalProgress (s : TrackerState) : ℚ :=
  if s.total_bytes = 0 then 0
  else ((s.processed_bytes + sumInProgress s.in_progress : Nat) : ℚ) / (s.total_bytes : ℚ)

/-- The tracker's mutating calls. -/
inductive TrackerOp
  | setTotal (t : Nat)
  | start (p : String) (total : Nat)
  | update (p : String) (processed : Nat)
  | complete (p : String)
  | reset
deriving DecidableEq

/-- Apply one call. -/
def applyOp (s : TrackerState) : TrackerOp → TrackerState
  | .setTotal t => setTotal s t
  | .start p total => startFile s p total
  | .update p processed => updateProgress s p processed
  | .complete p => completeFile s p
  | .reset => resetTracker s

/-- Run a sequence of calls. -/
def runOps (s : TrackerState) (ops : List TrackerOp) : TrackerState :=
  ops.foldl applyOp s

/-! ## Idempotence and unknown-path safety (claim C10) -/

theorem lookupFile_eraseFile (m : List (String × FileProgress)) (p : String) :
    lookupFile (eraseFile m p) p = none := by
  induction m with
  | nil => rfl
  | cons kv rest ih =>
    by_cases h : kv.1 = p <;> simp_all [eraseFile, lookupFile, List.filter_cons, bne_iff_ne]

/-- Claim C10: `complete_file` is idempotent, and both `complete_file` and
`update_progress` are no-ops on a path that is not in the in-progress map
(never registered, or already completed and hence removed). -/
theorem completeFile_idempotent_and_unknown_safe (s : TrackerState) (p : String) (n : Nat) :
    completeFile (completeFile s p) p = completeFile s p ∧
    (lookupFile s.in_progress p = none →
      completeFile s p = s ∧ updateProgress s p n = s) := by
  constructor
  · unfold completeFile
    cases hl : lookupFile s.in_progress p with
    | none => simp [hl]
    | some fp => simp [hl, lookupFile_eraseFile]
  · intro hnone
    unfold completeFile updateProgress
    rw [hnone]
    exact ⟨rfl, rfl⟩

/-- Witness for C10 at a concrete state: completing the registered file `a`
twice counts its 5 bytes once, and calls on the never-registered path `b`
leave the state unchanged. -/
theorem completeFile_idempotent_and_unknown_safe_witness :
    completeFile (completeFile ⟨0, 5, [("a", ⟨2, 5⟩)]⟩ "a") "a"
      = completeFile ⟨0, 5, [("a", ⟨2, 5⟩)]⟩ "a" ∧
    completeFile ⟨0, 5, [("a", ⟨2, 5⟩)]⟩ "b" = ⟨0, 5, [("a", ⟨2, 5⟩)]⟩ ∧
    updateProgress ⟨0, 5, [("a", ⟨2, 5⟩)]⟩ "b" 4 = ⟨0, 5, [("a", ⟨2, 5⟩)]⟩ := by
  have h := completeFile_idempotent_and_unknown_safe ⟨0, 5, [("a", ⟨2, 5⟩)]⟩ "a" 4
  have h2 := completeFile_idempotent_and_unknown_safe ⟨0, 5, [("a", ⟨2, 5⟩)]⟩ "b" 4
  exact ⟨h.1, (h2.2 (by decide)).1, (h2.2 (by decide)).2⟩

/-! ## Progress accounting traces (claims C7 and C9) -/

def sumSizes (l : List (String × Nat)) : Nat := (l.map Prod.snd).sum

def keyTotals (m : List (String × FileProgress)) : List (String × Nat) :=
  m.map (fun kv => (kv.1, kv.2.total))

theorem keyTotals_map_fst (m : List (String × FileProgress)) :
    (keyTotals m).map Prod.fst = m.map Prod.fst := by
  induction m with
  | nil => rfl
  | cons kv rest ih => simp [keyTotals] at *

theorem lookupFile_eq_none_of_not_mem (m : List (String × FileProgress)) (p : String)
    (h : p ∉ m.map Prod.fst) : lookupFile m p = none := by
  induction m with
  | nil => rfl
  | cons kv rest ih =>
    simp only [List.map_cons, List.mem_cons, not_or] at h
    have hne : ¬ kv.1 = p := fun he => h.1 he.symm
    simp only [lookupFile, if_neg hne]
    exact ih h.2

theorem eraseFile_eq_self_of_not_mem (m : List (String × FileProgress)) (p : String)
    (h : p ∉ m.map Prod.fst) : eraseFile m p = m := by
  induction m with
  | nil => rfl
  | cons kv rest ih =>
    simp only [List.map_cons, List.mem_cons, not_or] at h
    simp only [eraseFile, List.filter_cons]
    rw [if_pos (by simp [bne_iff_ne]; exact fun he => h.1 he.symm)]
    have := ih h.2
    simp only [eraseFile] at this
    rw [this]

theorem lookupFile_eq_of_mem (m : List (String × FileProgress))
    (hnd : (m.map Prod.fst).Nodup) (kv : String × FileProgress) (hkv : kv ∈ m) :
    lookupFile m kv.1 = some kv.2 := by
  induction m with
  | nil => cases hkv
  | cons hd rest ih =>
    rcases List.mem_cons.mp hkv with h | h
    · rw [h]
      simp [lookupFile]
    · have hne : hd.1 ≠ kv.1 := by
        simp only [List.map_cons, List.nodup_cons] at hnd
        intro he
        exact hnd.1 (he ▸ List.mem_map_of_mem Prod.fst h)
      simp only [lookupFile, if_neg hne]
      exact ih (by simp_all [List.nodup_cons]) h

theorem perm_cons_eraseFile (m : List (String × FileProgress)) (p : String)
    (fp : FileProgress) (hnd : (m.map Prod.fst).Nodup)
    (hl : lookupFile m p = some fp) : m.Perm ((p, fp) :: eraseFile m p) := by
  induction m with
  | nil => cases hl
  | cons hd rest ih =>
    by_cases h : hd.1 = p
    · simp only [lookupFile, if_pos h] at hl
      have hrest : eraseFile rest p = rest := by
        apply eraseFile_eq_self_of_not_mem
        simp only [List.map_cons, List.nodup_cons] at hnd
        rw [← h]
        exact hnd.1
      have hhd : hd = (p, fp) := by
        cases hd
        simp_all
      simp only [eraseFile, List.filter_cons]
      rw [if_neg (by simp [bne_iff_ne, h])]
      rw [hhd]
      simp only [eraseFile] at hrest
      rw [hrest]
    · simp only [lookupFile, if_neg h] at hl
      have ihr := ih (by simp_all [List.nodup_cons]) hl
      simp only [eraseFile, List.filter_cons]
      rw [if_pos (by simp [bne_iff_ne, h])]
      refine List.Perm.trans (List.Perm.cons hd ?_) (List.Perm.swap _ _ _)
      simpa [eraseFile] using ihr

/-- Erase the first occurrence of a (path, size) pair. -/
def eraseOne : List (String × Nat) → (String × Nat) → List (String × Nat)
  | [], _ => []
  | y :: ys, x => if y = x then ys else y :: eraseOne ys x

theorem perm_cons_eraseOne {l : List (String × Nat)} {x : String × Nat} (h : x ∈ l) :
    List.Perm l (x :: eraseOne l x) := by
  induction l with
  | nil => cases h
  | cons y ys ih =>
    by_cases hy : y = x
    · rw [hy]
      simp [eraseOne]
    · have hx : x ∈ ys := by
        rcases List.mem_cons.mp h with h1 | h1
        · exact absurd h1.symm hy
        · exact h1
      simp only [eraseOne, if_neg hy]
      exact List.Perm.trans (List.Perm.cons y (ih hx)) (List.Perm.swap _ _ _)

/-- Traces of `start_file`/`update_progress`/`complete_file` calls that start
each pending file once and eventually complete every started file:
`CompletesAll pending active t` says that `t`, run against a tracker whose
live map matches `active`, starts each file of `pending` exactly once (after
which it is live), completes every file of `pending` and `active` after its
start, and may interleave arbitrary progress updates and completes of
non-live paths (which the tracker ignores). -/
inductive CompletesAll : List (String × Nat) → List (String × Nat) → List TrackerOp → Prop
  | nil : CompletesAll [] [] []
  | start (pending active : List (String × Nat)) (t : List TrackerOp)
      (p : String) (n : Nat) :
      (p, n) ∈ pending →
      CompletesAll (eraseOne pending (p, n)) ((p, n) :: active) t →
      CompletesAll pending active (TrackerOp.start p n :: t)
  | update (pending active : List (String × Nat)) (t : List TrackerOp)
      (p : String) (m : Nat) :
      CompletesAll pending active t →
      CompletesAll pending active (TrackerOp.update p m :: t)
  | complete (pending active : List (String × Nat)) (t : List TrackerOp)
      (p : String) (n : Nat) :
      (p, n) ∈ active →
      CompletesAll pending (eraseOne active (p, n)) t →
      CompletesAll pending active (TrackerOp.complete p :: t)
  | completeMiss (pending active : List (String × Nat)) (t : List TrackerOp)
      (p : String) :
      p ∉ active.map Prod.fst →
      CompletesAll pending active t →
      CompletesAll pending active (TrackerOp.complete p :: t)

theorem sumSizes_eraseOne_of_mem {l : List (String × Nat)} {p : String} {n : Nat}
    (h : (p, n) ∈ l) : sumSizes l = n + sumSizes (eraseOne l (p, n)) := by
  unfold sumSizes
  rw [((perm_cons_eraseOne h).map Prod.snd).sum_eq]
  simp

/-- The tracker, run over a `CompletesAll` trace from a state whose live map
matches `active`, ends with an empty live map, its completed counter advanced
by exactly the sizes of all pending and active files (each counted once), and
its total unchanged. -/
theorem runOps_completesAll {pending active : List (String × Nat)} {t : List TrackerOp}
    (hca : CompletesAll pending active t) :
    ∀ s : TrackerState,
      ((pending.map Prod.fst) ++ (active.map Prod.fst)).Nodup →
      List.Perm (keyTotals s.in_progress) active →
      (runOps s t).processed_bytes = s.processed_bytes + sumSizes pending + sumSizes active ∧
      (runOps s t).in_progress = [] ∧
      (runOps s t).total_bytes = s.total_bytes := by
  induction hca with
  | nil =>
    intro s hnd hperm
    have h0 : keyTotals s.in_progress = [] := hperm.eq_nil
    have hin : s.in_progress = [] := by
      cases hsm : s.in_progress with
      | nil => rfl
      | cons kv rest => rw [hsm] at h0; cases h0
    simp [runOps, sumSizes, hin]
  | start pending active t p n hmem htail ih =>
    intro s hnd hperm
    have hpp : List.Perm pending ((p, n) :: eraseOne pending (p, n)) :=
      perm_cons_eraseOne hmem
    have hrearr : List.Perm ((pending.map Prod.fst) ++ (active.map Prod.fst))
        (((eraseOne pending (p, n)).map Prod.fst) ++ (((p, n) :: active).map Prod.fst)) := by
      refine List.Perm.trans ((hpp.map Prod.fst).append_right _) ?_
      simp only [List.map_cons, List.cons_append]
      exact List.perm_middle.symm
    have hnd' := hrearr.nodup hnd
    have hpact : p ∉ active.map Prod.fst :=
      fun hmem2 =>
        (List.nodup_append.mp hnd).2.2 (List.mem_map_of_mem Prod.fst hmem) hmem2
    have hplive : p ∉ s.in_progress.map Prod.fst := by
      rw [← keyTotals_map_fst]
      intro hm
      exact hpact ((hperm.map Prod.fst).mem_iff.mp hm)
    have hperm' : List.Perm (keyTotals (startFile s p n).in_progress) ((p, n) :: active) := by
      show List.Perm (keyTotals (insertFile s.in_progress p ⟨0, n⟩)) _
      unfold insertFile
      rw [eraseFile_eq_self_of_not_mem _ _ hplive]
      exact List.Perm.cons _ hperm
    have hstep : runOps s (TrackerOp.start p n :: t) = runOps (startFile s p n) t := rfl
    rw [hstep]
    obtain ⟨h1, h2, h3⟩ := ih (startFile s p n) hnd' hperm'
    have hsum : sumSizes pending = n + sumSizes (eraseOne pending (p, n)) :=
      sumSizes_eraseOne_of_mem hmem
    have hsum2 : sumSizes ((p, n) :: active) = n + sumSizes active := by
      simp [sumSizes]
    refine ⟨?_, h2, h3⟩
    rw [h1]
    show s.processed_bytes + _ + _ = _
    omega
  | update pending active t p m htail ih =>
    intro s hnd hperm
    have hstep : runOps s (TrackerOp.update p m :: t) = runOps (updateProgress s p m) t := rfl
    rw [hstep]
    cases hl : lookupFile s.in_progress p with
    | none =>
      have hid : updateProgress s p m = s := by
        unfold updateProgress
        rw [hl]
      rw [hid]
      exact ih s hnd hperm
    | some fp =>
      have hmnodup : (s.in_progress.map Prod.fst).Nodup := by
        have h := hperm.map Prod.fst
        rw [keyTotals_map_fst] at h
        exact h.symm.nodup hnd.of_append_right
      have hpc : List.Perm s.in_progress ((p, fp) :: eraseFile s.in_progress p) :=
        perm_cons_eraseFile _ _ _ hmnodup hl
      have hup : updateProgress s p m
          = ⟨s.processed_bytes, s.total_bytes,
             insertFile s.in_progress p ⟨m, fp.total⟩⟩ := by
        unfold updateProgress
        rw [hl]
      rw [hup]
      have hperm' : List.Perm
          (keyTotals (insertFile s.in_progress p ⟨m, fp.total⟩)) active := by
        refine List.Perm.trans ?_ hperm
        unfold insertFile
        have h := (hpc.map (fun kv => (kv.1, kv.2.total))).symm
        simpa [keyTotals] using h
      exact ih ⟨s.processed_bytes, s.total_bytes,
        insertFile s.in_progress p ⟨m, fp.total⟩⟩ hnd hperm'
  | complete pending active t p n hmem htail ih =>
    intro s hnd hperm
    have hactnodup : (active.map Prod.fst).Nodup := hnd.of_append_right
    have hmnodup : (s.in_progress.map Prod.fst).Nodup := by
      have h := hperm.map Prod.fst
      rw [keyTotals_map_fst] at h
      exact h.symm.nodup hactnodup
    have hpn_mem : (p, n) ∈ keyTotals s.in_progress := hperm.mem_iff.mpr hmem
    obtain ⟨kv, hkv, hkveq⟩ := List.mem_map.mp hpn_mem
    have hk1 : kv.1 = p := congrArg Prod.fst hkveq
    have hk2 : kv.2.total = n := congrArg Prod.snd hkveq
    have hl : lookupFile s.in_progress p = some kv.2 := by
      rw [← hk1]
      exact lookupFile_eq_of_mem _ hmnodup kv hkv
    have hpc : List.Perm s.in_progress ((p, kv.2) :: eraseFile s.in_progress p) :=
      perm_cons_eraseFile _ _ _ hmnodup hl
    have hae : List.Perm active ((p, n) :: eraseOne active (p, n)) :=
      perm_cons_eraseOne hmem
    have hcf : completeFile s p
        = ⟨s.processed_bytes + kv.2.total, s.total_bytes,
           eraseFile s.in_progress p⟩ := by
      unfold completeFile
      rw [hl]
    have hperm' : List.Perm (keyTotals (eraseFile s.in_progress p))
        (eraseOne active (p, n)) := by
      have h1 : List.Perm (keyTotals s.in_progress)
          ((p, n) :: keyTotals (eraseFile s.in_progress p)) := by
        have h := hpc.map (fun kv => (kv.1, kv.2.total))
        simpa [keyTotals, hk2] using h
      have h2 : List.Perm ((p, n) :: keyTotals (eraseFile s.in_progress p))
          ((p, n) :: eraseOne active (p, n)) :=
        (h1.symm.trans hperm).trans hae
      exact h2.cons_inv
    have hnd' : ((pending.map Prod.fst) ++
        ((eraseOne active (p, n)).map Prod.fst)).Nodup := by
      have h1 : List.Perm ((pending.map Prod.fst) ++ (active.map Prod.fst))
          ((pending.map Prod.fst) ++ (p :: (eraseOne active (p, n)).map Prod.fst)) :=
        List.Perm.append_left _ (by simpa using hae.map Prod.fst)
      have h2 := h1.nodup hnd
      have h3 := List.perm_middle.nodup h2
      exact h3.of_cons
    have hstep : runOps s (TrackerOp.complete p :: t) = runOps (completeFile s p) t := rfl
    rw [hstep, hcf]
    obtain ⟨h1, h2, h3⟩ := ih ⟨s.processed_bytes + kv.2.total, s.total_bytes,
      eraseFile s.in_progress p⟩ hnd' hperm'
    refine ⟨?_, h2, h3⟩
    rw [h1]
    have hsum : sumSizes active = n + sumSizes (eraseOne active (p, n)) :=
      sumSizes_eraseOne_of_mem hmem
    show s.processed_bytes + kv.2.total + _ + _ = _
    omega
  | completeMiss pending active t p hmemact htail ih =>
    intro s hnd hperm
    have hplive : p ∉ s.in_progress.map Prod.fst := by
      rw [← keyTotals_map_fst]
      intro hm
      exact hmemact ((hperm.map Prod.fst).mem_iff.mp hm)
    have hl : lookupFile s.in_progress p = none :=
      lookupFile_eq_none_of_not_mem _ _ hplive
    have hid : completeFile s p = s := by
      unfold completeFile
      rw [hl]
    have hstep : runOps s (TrackerOp.complete p :: t) = runOps (completeFile s p) t := rfl
    rw [hstep, hid]
    exact ih s hnd hperm

/-- Claim C7 (amended): for a tracker with total `T > 0` and files of distinct
paths whose sizes sum to `T`, any interleaving of start/update/complete calls
in which each file is eventually completed (in any completion order) ends
with global progress exactly 1: each file's bytes are counted exactly once,
moved from the live map to the completed counter at completion. -/
theorem global_progress_completes_to_one (files : List (String × Nat))
    (t : List TrackerOp) (T : Nat)
    (hnd : (files.map Prod.fst).Nodup)
    (hT : sumSizes files = T) (hTpos : 0 < T)
    (hca : CompletesAll files [] t) :
    getGlobalProgress (runOps (setTotal TrackerState.new T) t) = 1 := by
  obtain ⟨h1, h2, h3⟩ := runOps_completesAll hca (setTotal TrackerState.new T)
    (by simpa using hnd) (by simp [keyTotals, setTotal, TrackerState.new])
  have hproc : (runOps (setTotal TrackerState.new T) t).processed_bytes = T := by
    rw [h1]
    show 0 + sumSizes files + sumSizes [] = T
    rw [show sumSizes ([] : List (String × Nat)) = 0 from rfl]
    omega
  unfold getGlobalProgress
  rw [h2, h3, hproc]
  show (if T = 0 then (0 : ℚ) else ((T + sumInProgress [] : Nat) : ℚ) / (T : ℚ)) = 1
  rw [if_neg (by omega)]
  rw [show sumInProgress [] = 0 from rfl, Nat.add_zero]
  exact div_self (by exact_mod_cast hTpos.ne')

/-- Claim C7 counterexample: one zero-sized file (so the batch total `T` is
0, and the file's sizes sum to `T`), started and completed; the final global
progress is 0, not 1, because `get_global_progress` returns 0 whenever the
total is 0. -/
theorem global_progress_zero_total_cex :
    CompletesAll [("a", 0)] [] [TrackerOp.start "a" 0, TrackerOp.complete "a"] ∧
    sumSizes [("a", 0)] = 0 ∧
    getGlobalProgress (runOps (setTotal TrackerState.new 0)
      [TrackerOp.start "a" 0, TrackerOp.complete "a"]) = 0 ∧
    getGlobalProgress (runOps (setTotal TrackerState.new 0)
      [TrackerOp.start "a" 0, TrackerOp.complete "a"]) ≠ 1 := by
  refine ⟨?_, rfl, rfl, ?_⟩
  · refine CompletesAll.start _ _ _ _ _ (by decide) ?_
    refine CompletesAll.complete _ _ _ "a" 0 (by decide) ?_
    exact CompletesAll.nil
  · rw [show getGlobalProgress (runOps (setTotal TrackerState.new 0)
      [TrackerOp.start "a" 0, TrackerOp.complete "a"]) = 0 from rfl]
    norm_num

/-- Witness for C7 (amended): files `a` (2 bytes) and `b` (3 bytes), total 5,
with interleaved updates and out-of-order completion, end at progress 1. -/
theorem global_progress_completes_to_one_witness :
    getGlobalProgress (runOps (setTotal TrackerState.new 5)
      [TrackerOp.start "a" 2, TrackerOp.start "b" 3, TrackerOp.update "a" 1,
       TrackerOp.complete "b", TrackerOp.update "a" 2, TrackerOp.complete "a"]) = 1 := by
  apply global_progress_completes_to_one [("a", 2), ("b", 3)] _ 5
    (by decide) (by decide) (by decide)
  refine CompletesAll.start _ _ _ _ _ (by decide) ?_
  refine CompletesAll.start _ _ _ _ _ (by decide) ?_
  refine CompletesAll.update _ _ _ _ _ ?_
  refine CompletesAll.complete _ _ _ "b" 3 (by decide) ?_
  refine CompletesAll.update _ _ _ _ _ ?_
  refine CompletesAll.complete _ _ _ "a" 2 (by decide) ?_
  exact CompletesAll.nil

/-- Traces of bounded tracker usage: each pending file is started at most
once, updates of a live file never exceed its registered size, completes of
non-live paths are allowed (the tracker ignores them), and the trace may stop
at any point. -/
inductive BoundedTrace : List (String × Nat) → List (String × Nat) → List TrackerOp → Prop
  | nil (pending active : List (String × Nat)) : BoundedTrace pending active []
  | start (pending active : List (String × Nat)) (t : List TrackerOp)
      (p : String) (n : Nat) :
      (p, n) ∈ pending →
      BoundedTrace (eraseOne pending (p, n)) ((p, n) :: active) t →
      BoundedTrace pending active (TrackerOp.start p n :: t)
  | updateLive (pending active : List (String × Nat)) (t : List TrackerOp)
      (p : String) (n m : Nat) :
      (p, n) ∈ active → m ≤ n →
      BoundedTrace pending active t →
      BoundedTrace pending active (TrackerOp.update p m :: t)
  | updateMiss (pending active : List (String × Nat)) (t : List TrackerOp)
      (p : String) (m : Nat) :
      p ∉ active.map Prod.fst →
      BoundedTrace pending active t →
      BoundedTrace pending active (TrackerOp.update p m :: t)
  | complete (pending active : List (String × Nat)) (t : List TrackerOp)
      (p : String) (n : Nat) :
      (p, n) ∈ active →
      BoundedTrace pending (eraseOne active (p, n)) t →
      BoundedTrace pending active (TrackerOp.complete p :: t)
  | completeMiss (pending active : List (String × Nat)) (t : List TrackerOp)
      (p : String) :
      p ∉ active.map Prod.fst →
      BoundedTrace pending active t →
      BoundedTrace pending active (TrackerOp.complete p :: t)

/-- Over a bounded trace, the completed counter plus the live processed sum
never exceeds the total: the invariant behind the [0,1] range. -/
theorem runOps_boundedTrace {pending active : List (String × Nat)} {t : List TrackerOp}
    (hbt : BoundedTrace pending active t) :
    ∀ s : TrackerState,
      ((pending.map Prod.fst) ++ (active.map Prod.fst)).Nodup →
      List.Perm (keyTotals s.in_progress) active →
      (∀ kv ∈ s.in_progress, kv.2.processed ≤ kv.2.total) →
      s.processed_bytes + sumSizes pending + sumSizes active ≤ s.total_bytes →
      (runOps s t).processed_bytes + sumInProgress (runOps s t).in_progress
        ≤ (runOps s t).total_bytes := by
  induction hbt with
  | nil pending active =>
    intro s hnd hperm hbound hle
    show s.processed_bytes + sumInProgress s.in_progress ≤ s.total_bytes
    have hb1 : sumInProgress s.in_progress
        ≤ (s.in_progress.map (fun kv => kv.2.total)).sum :=
      List.sum_le_sum (fun kv hkv => hbound kv hkv)
    have hb2 : (s.in_progress.map (fun kv => kv.2.total)).sum = sumSizes active := by
      have h := (hperm.map Prod.snd).sum_eq
      simpa [keyTotals, sumSizes, Function.comp] using h
    omega
  | start pending active t p n hmem htail ih =>
    intro s hnd hperm hbound hle
    have hpp : List.Perm pending ((p, n) :: eraseOne pending (p, n)) :=
      perm_cons_eraseOne hmem
    have hrearr : List.Perm ((pending.map Prod.fst) ++ (active.map Prod.fst))
        (((eraseOne pending (p, n)).map Prod.fst) ++ (((p, n) :: active).map Prod.fst)) := by
      refine List.Perm.trans ((hpp.map Prod.fst).append_right _) ?_
      simp only [List.map_cons, List.cons_append]
      exact List.perm_middle.symm
    have hnd' := hrearr.nodup hnd
    have hpact : p ∉ active.map Prod.fst :=
      fun hmem2 =>
        (List.nodup_append.mp hnd).2.2 (List.mem_map_of_mem Prod.fst hmem) hmem2
    have hplive : p ∉ s.in_progress.map Prod.fst := by
      rw [← keyTotals_map_fst]
      intro hm
      exact hpact ((hperm.map Prod.fst).mem_iff.mp hm)
    have heq : eraseFile s.in_progress p = s.in_progress :=
      eraseFile_eq_self_of_not_mem _ _ hplive
    have hstep : runOps s (TrackerOp.start p n :: t) = runOps (startFile s p n) t := rfl
    rw [hstep]
    have hin : (startFile s p n).in_progress = (p, ⟨0, n⟩) :: s.in_progress := by
      show insertFile s.in_progress p ⟨0, n⟩ = _
      unfold insertFile
      rw [heq]
    refine ih (startFile s p n) hnd' ?_ ?_ ?_
    · rw [hin]
      exact List.Perm.cons _ hperm
    · rw [hin]
      intro kv hkv
      rcases List.mem_cons.mp hkv with h | h
      · rw [h]
        exact Nat.zero_le n
      · exact hbound kv h
    · show s.processed_bytes + _ + _ ≤ s.total_bytes
      have hsum : sumSizes pending = n + sumSizes (eraseOne pending (p, n)) :=
        sumSizes_eraseOne_of_mem hmem
      have hsum2 : sumSizes ((p, n) :: active) = n + sumSizes active := by
        simp [sumSizes]
      omega
  | updateLive pending active t p n m hmem hle2 htail ih =>
    intro s hnd hperm hbound hle
    have hstep : runOps s (TrackerOp.update p m :: t) = runOps (updateProgress s p m) t := rfl
    rw [hstep]
    have hactnodup : (active.map Prod.fst).Nodup := hnd.of_append_right
    have hmnodup : (s.in_progress.map Prod.fst).Nodup := by
      have h := hperm.map Prod.fst
      rw [keyTotals_map_fst] at h
      exact h.symm.nodup hactnodup
    have hpn_mem : (p, n) ∈ keyTotals s.in_progress := hperm.mem_iff.mpr hmem
    obtain ⟨kv, hkv, hkveq⟩ := List.mem_map.mp hpn_mem
    have hk1 : kv.1 = p := congrArg Prod.fst hkveq
    have hk2 : kv.2.total = n := congrArg Prod.snd hkveq
    have hl : lookupFile s.in_progress p = some kv.2 := by
      rw [← hk1]
      exact lookupFile_eq_of_mem _ hmnodup kv hkv
    have hpc : List.Perm s.in_progress ((p, kv.2) :: eraseFile s.in_progress p) :=
      perm_cons_eraseFile _ _ _ hmnodup hl
    have hup : updateProgress s p m
        = ⟨s.processed_bytes, s.total_bytes,
           insertFile s.in_progress p ⟨m, kv.2.total⟩⟩ := by
      unfold updateProgress
      rw [hl]
    rw [hup]
    refine ih ⟨s.processed_bytes, s.total_bytes,
      insertFile s.in_progress p ⟨m, kv.2.total⟩⟩ hnd ?_ ?_ hle
    · show List.Perm (keyTotals (insertFile s.in_progress p ⟨m, kv.2.total⟩)) active
      refine List.Perm.trans ?_ hperm
      unfold insertFile
      have h := (hpc.map (fun kv => (kv.1, kv.2.total))).symm
      simpa [keyTotals] using h
    · show ∀ kv2 ∈ insertFile s.in_progress p ⟨m, kv.2.total⟩, _
      unfold insertFile
      intro kv2 hkv2
      rcases List.mem_cons.mp hkv2 with h | h
      · rw [h]
        show m ≤ kv.2.total
        omega
      · exact hbound kv2 (List.mem_filter.mp h).1
  | updateMiss pending active t p m hmemact htail ih =>
    intro s hnd hperm hbound hle
    have hplive : p ∉ s.in_progress.map Prod.fst := by
      rw [← keyTotals_map_fst]
      intro hm
      exact hmemact ((hperm.map Prod.fst).mem_iff.mp hm)
    have hl : lookupFile s.in_progress p = none :=
      lookupFile_eq_none_of_not_mem _ _ hplive
    have hid : updateProgress s p m = s := by
      unfold updateProgress
      rw [hl]
    have hstep : runOps s (TrackerOp.update p m :: t) = runOps (updateProgress s p m) t := rfl
    rw [hstep, hid]
    exact ih s hnd hperm hbound hle
  | complete pending active t p n hmem htail ih =>
    intro s hnd hperm hbound hle
    have hactnodup : (active.map Prod.fst).Nodup := hnd.of_append_right
    have hmnodup : (s.in_progress.map Prod.fst).Nodup := by
      have h := hperm.map Prod.fst
      rw [keyTotals_map_fst] at h
      exact h.symm.nodup hactnodup
    have hpn_mem : (p, n) ∈ keyTotals s.in_progress := hperm.mem_iff.mpr hmem
    obtain ⟨kv, hkv, hkveq⟩ := List.mem_map.mp hpn_mem
    have hk1 : kv.1 = p := congrArg Prod.fst hkveq
    have hk2 : kv.2.total = n := congrArg Prod.snd hkveq
    have hl : lookupFile s.in_progress p = some kv.2 := by
      rw [← hk1]
      exact lookupFile_eq_of_mem _ hmnodup kv hkv
    have hpc : List.Perm s.in_progress ((p, kv.2) :: eraseFile s.in_progress p) :=
      perm_cons_eraseFile _ _ _ hmnodup hl
    have hae : List.Perm active ((p, n) :: eraseOne active (p, n)) :=
      perm_cons_eraseOne hmem
    have hcf : completeFile s p
        = ⟨s.processed_bytes + kv.2.total, s.total_bytes,
           eraseFile s.in_progress p⟩ := by
      unfold completeFile
      rw [hl]
    have hperm' : List.Perm (keyTotals (eraseFile s.in_progress p))
        (eraseOne active (p, n)) := by
      have h1 : List.Perm (keyTotals s.in_progress)
          ((p, n) :: keyTotals (eraseFile s.in_progress p)) := by
        have h := hpc.map (fun kv => (kv.1, kv.2.total))
        simpa [keyTotals, hk2] using h
      have h2 : List.Perm ((p, n) :: keyTotals (eraseFile s.in_progress p))
          ((p, n) :: eraseOne active (p, n)) :=
        (h1.symm.trans hperm).trans hae
      exact h2.cons_inv
    have hnd' : ((pending.map Prod.fst) ++
        ((eraseOne active (p, n)).map Prod.fst)).Nodup := by
      have h1 : List.Perm ((pending.map Prod.fst) ++ (active.map Prod.fst))
          ((pending.map Prod.fst) ++ (p :: (eraseOne active (p, n)).map Prod.fst)) :=
        List.Perm.append_left _ (by simpa using hae.map Prod.fst)
      have h2 := h1.nodup hnd
      have h3 := List.perm_middle.nodup h2
      exact h3.of_cons
    have hstep : runOps s (TrackerOp.complete p :: t) = runOps (completeFile s p) t := rfl
    rw [hstep, hcf]
    refine ih ⟨s.processed_bytes + kv.2.total, s.total_bytes,
      eraseFile s.in_progress p⟩ hnd' hperm' ?_ ?_
    · intro kv2 hkv2
      exact hbound kv2 (List.mem_filter.mp hkv2).1
    · show s.processed_bytes + kv.2.total + _ + _ ≤ s.total_bytes
      have hsum : sumSizes active = n + sumSizes (eraseOne active (p, n)) :=
        sumSizes_eraseOne_of_mem hmem
      omega
  | completeMiss pending active t p hmemact htail ih =>
    intro s hnd hperm hbound hle
    have hplive : p ∉ s.in_progress.map Prod.fst := by
      rw [← keyTotals_map_fst]
      intro hm
      exact hmemact ((hperm.map Prod.fst).mem_iff.mp hm)
    have hl : lookupFile s.in_progress p = none :=
      lookupFile_eq_none_of_not_mem _ _ hplive
    have hid : completeFile s p = s := by
      unfold completeFile
      rw [hl]
    have hstep : runOps s (TrackerOp.complete p :: t) = runOps (completeFile s p) t := rfl
    rw [hstep, hid]
    exact ih s hnd hperm hbound hle

/-- Claim C9 counterexample: a reachable state (set_total 1, start a file of
size 1, then report 5 processed bytes for it) on which
`get_global_progress` returns 5, strictly above 1 - the code never clamps,
and `update_progress` accepts counts beyond the file's registered size. -/
theorem global_progress_exceeds_one_cex :
    1 < getGlobalProgress (runOps TrackerState.new
      [TrackerOp.setTotal 1, TrackerOp.start "a" 1, TrackerOp.update "a" 5]) := by
  have h : runOps TrackerState.new
      [TrackerOp.setTotal 1, TrackerOp.start "a" 1, TrackerOp.update "a" 5]
      = ⟨0, 1, [("a", ⟨5, 1⟩)]⟩ := rfl
  rw [h]
  unfold getGlobalProgress
  norm_num [sumInProgress]

/-- Claim C9 (amended): `get_global_progress` is always nonnegative, and it
stays at most 1 on every call sequence in which each file is started at most
once with distinct paths, the started sizes sum to at most the configured
total, and every progress update stays within its file's registered size;
without those usage conditions the value can exceed 1. -/
theorem global_progress_bounds :
    (∀ s : TrackerState, 0 ≤ getGlobalProgress s) ∧
    (∀ (files : List (String × Nat)) (T : Nat) (t : List TrackerOp),
      (files.map Prod.fst).Nodup →
      sumSizes files ≤ T →
      BoundedTrace files [] t →
      getGlobalProgress (runOps (setTotal TrackerState.new T) t) ≤ 1) := by
  constructor
  · intro s
    unfold getGlobalProgress
    split
    · exact le_refl 0
    · positivity
  · intro files T t hnd hsumle hbt
    have hfin := runOps_boundedTrace hbt (setTotal TrackerState.new T)
      (by simpa using hnd)
      (by simp [keyTotals, setTotal, TrackerState.new])
      (by intro kv hkv; cases hkv)
      (by show 0 + sumSizes files + sumSizes [] ≤ T
          rw [show sumSizes ([] : List (String × Nat)) = 0 from rfl]
          omega)
    unfold getGlobalProgress
    split
    · norm_num
    · rename_i htz
      rw [div_le_one (by exact_mod_cast Nat.pos_of_ne_zero htz)]
      exact_mod_cast hfin

/-- Witness for C9 (amended): nonnegativity at a concrete state, and the
bound at a concrete bounded trace (one 2-byte file, updated to 1 byte). -/
theorem global_progress_bounds_witness :
    0 ≤ getGlobalProgress ⟨3, 10, [("a", ⟨2, 5⟩)]⟩ ∧
    getGlobalProgress (runOps (setTotal TrackerState.new 2)
      [TrackerOp.start "a" 2, TrackerOp.update "a" 1]) ≤ 1 := by
  refine ⟨global_progress_bounds.1 _, ?_⟩
  apply global_progress_bounds.2 [("a", 2)] 2 _ (by decide) (by decide)
  refine BoundedTrace.start _ _ _ _ _ (by decide) ?_
  refine BoundedTrace.updateLive _ _ _ "a" 2 1 (by decide) (by decide) ?_
  exact BoundedTrace.nil _ _

/-! ## `src/worker.rs`: the worker command loop (claim C3)

The scheduler loop receives commands in order.  `Compute(files)` spawns an
independent batch-computation task for `files`; `Scan` and `SaveCache`
delegate elsewhere; `Cancel` is handled by the arm
`WorkerMessage::Cancel => { // No-op for API compatibility }`.  The
observable modelled here is the sequence of compute batches the loop
dispatches while consuming its inbound message list. -/

/-- The inbound worker commands (`WorkerMessage`). -/
inductive WorkerMessage
  | Compute (files : List String)
  | Scan (paths : List String)
  | SaveCache (entries : List CacheEntry)
  | Cancel
deriving DecidableEq

/-- The compute batches dispatched by `WorkerThread::run` while it consumes
its message stream, in order: each `Compute` spawns one batch; `Scan` and
`SaveCache` dispatch no batch; `Cancel` is a no-op. -/
def workerDispatches : List WorkerMessage → List (List String)
  | [] => []
  | WorkerMessage.Compute files :: rest => files :: workerDispatches rest
  | WorkerMessage.Scan _ :: rest => workerDispatches rest
  | WorkerMessage.SaveCache _ :: rest => workerDispatches rest
  | WorkerMessage.Cancel :: rest => workerDispatches rest

/-- Claim C3 counterexample: a `Compute` command arriving after a `Cancel`
still dispatches its batch - after the worker receives `Cancel`, a new
compute batch IS started, contradicting the claim that `Cancel` prevents
subsequent batch dispatch from beginning. -/
theorem cancel_does_not_stop_dispatch_cex :
    workerDispatches [WorkerMessage.Cancel, WorkerMessage.Compute ["a"]] = [["a"]] ∧
    workerDispatches [WorkerMessage.Cancel, WorkerMessage.Compute ["a"]] ≠ [] := by
  constructor
  · rfl
  · decide

/-- Claim C3 (amended): `Cancel` is a pure no-op in the worker loop: it does
not preempt in-flight per-file hashing (dispatched batches run to
completion), and it also does not prevent subsequent batch dispatch - the
dispatched batches of any message stream are unchanged when a `Cancel` is
inserted anywhere, and are exactly the payloads of its `Compute` commands. -/
theorem cancel_is_noop (pre post : List WorkerMessage) :
    workerDispatches (pre ++ WorkerMessage.Cancel :: post)
      = workerDispatches (pre ++ post) ∧
    workerDispatches (WorkerMessage.Cancel :: post) = workerDispatches post := by
  constructor
  · induction pre with
    | nil => rfl
    | cons msg rest ih =>
      cases msg <;> simp only [List.cons_append, workerDispatches, List.append_eq, ih]
  · rfl
